import Mathlib

/-!
Verification of the Legal_ChatBot document chunking / retrieval subsystem.

The development shallowly embeds the Python sources:
  * backend/utils/manage_chunking.py  (LegalDocumentChunker)
  * backend/utils/faiss_integration.py (index build and filtered search)
  * backend/nodes/routing.py          (route_query)

Machine text is modelled as Lean String (a list of characters), Python ints
as Nat/Int, the overlap-percentage float as an exact fraction of naturals,
embedding vectors as integer lists (their float entries are external data
whose only role here is linear order and arithmetic),
and the external collaborators (the tiktoken encoder, the OpenAI embedding
client, faiss's L2 normalisation) as explicit function parameters, since
their tables live outside the repository.  Every definition is executable.
-/

namespace LegalChatBot

/-! ## Python-style character and string primitives -/

/-- ASCII whitespace, the characters Python's str.strip and str.split drop
and the regex class \s matches on the inputs at hand. -/
def isWS (c : Char) : Bool :=
  c = ' ' || c = '\t' || c = '\n' || c = '\r' || c = '\x0b' || c = '\x0c'

/-- Drop leading whitespace (the regex fragment \s* anchored at the start). -/
def dropWS (l : List Char) : List Char := l.dropWhile isWS

/-- Python str.strip(): drop whitespace at both ends. -/
def pyStripChars (l : List Char) : List Char :=
  ((l.dropWhile isWS).reverse.dropWhile isWS).reverse

/-- Python str.strip() on a String. -/
def pyStrip (s : String) : String := ⟨pyStripChars s.data⟩

/-- Python str.lower() (ASCII, which covers every string the code lowers). -/
def pyLower (s : String) : String := ⟨s.data.map Char.toLower⟩

/-- Python text.split(sep) for a single-character separator. -/
def splitCharAux (sep : Char) : List Char → List Char → List String
  | [], acc => [⟨acc.reverse⟩]
  | c :: cs, acc =>
    if c = sep then ⟨acc.reverse⟩ :: splitCharAux sep cs []
    else splitCharAux sep cs (c :: acc)

/-- Python text.split('\n'). -/
def pyLines (s : String) : List String := splitCharAux '\n' s.data []

/-- Split into maximal whitespace-free words, Python str.split() with no
argument: no empty words are produced. -/
def splitWsAux : List Char → List Char → List (List Char)
  | [], acc => if acc.isEmpty then [] else [acc.reverse]
  | c :: cs, acc =>
    if isWS c then
      if acc.isEmpty then splitWsAux cs [] else acc.reverse :: splitWsAux cs []
    else splitWsAux cs (c :: acc)

/-- Python s.split() (whitespace words). -/
def pyWords (s : String) : List String := (splitWsAux s.data []).map fun w => ⟨w⟩

/-- Python ' '.join at the character level. -/
def joinWordsChars : List (List Char) → List Char
  | [] => []
  | [w] => w
  | w :: rest => w ++ ' ' :: joinWordsChars rest

/-- Python ' '.join(ws). -/
def joinWords (ws : List String) : String := ⟨joinWordsChars (ws.map String.data)⟩

/-- Python words[-k:] for a positive k as the code writes it:
prev_words[-overlap_tokens:] if len(prev_words) > overlap_tokens else
prev_words. -/
def pyLastWords (k : Nat) (ws : List String) : List String :=
  if k < ws.length then ws.drop (ws.length - k) else ws

/-- Python int(n * pct) for a token/word count n and the chunker's
overlap_percentage given as the exact fraction pnum/pden (0.15 = 3/20):
truncation of a non-negative product is the floor, i.e. Nat division. -/
def pyIntMul (n pnum pden : Nat) : Nat := n * pnum / pden

/-- The loop of pyRange, structurally recursive on a fuel that bounds the
number of iterations. -/
def pyRangeFuel (step : Nat) : Nat → Nat → Nat → List Nat
  | 0, _, _ => []
  | fuel + 1, start, stop =>
    if start < stop then start :: pyRangeFuel step fuel (start + step) stop
    else []

/-- Python range(start, stop, step) for a positive step (the code only ever
uses positive steps; range raises on step 0, modelled as the empty range).
stop - start iterations always suffice for a positive step. -/
def pyRange (start stop step : Nat) : List Nat :=
  if step = 0 then [] else pyRangeFuel step (stop - start) start stop

/-- Python l[i] for a possibly negative index, as used on faiss hit indices:
negative indices count from the end, out-of-range is an IndexError (none). -/
def pyGetIdx {α : Type} (l : List α) (i : ℤ) : Option α :=
  if 0 ≤ i then l.get? i.toNat
  else if (-i).toNat ≤ l.length then l.get? (l.length - (-i).toNat) else none

/-! ## Regex matchers of manage_chunking.py

Each of the seven entries of LegalDocumentChunker.legal_section_patterns is
translated into an executable matcher over the character list, with the
re.IGNORECASE flag the code passes to re.match made explicit by lowering
characters before comparison.  re.match only anchors at the start, so each
matcher accepts any string the corresponding pattern prefix-matches. -/

/-- Case-insensitive literal match: consumes kw (given lowercase) from the
front of the input and returns the rest. -/
def ciDropKw : List Char → List Char → Option (List Char)
  | [], rest => some rest
  | _ :: _, [] => none
  | k :: ks, c :: cs => if c.toLower = k then ciDropKw ks cs else none

/-- One of several case-insensitive keywords at the front. -/
def ciDropAny (kws : List (List Char)) (l : List Char) : Option (List Char) :=
  match kws with
  | [] => none
  | kw :: rest =>
    match ciDropKw kw l with
    | some r => some r
    | none => ciDropAny rest l

def isIvxChar (c : Char) : Bool :=
  let d := c.toLower
  d = 'i' || d = 'v' || d = 'x'

/-- The tail ([IVX]+|\d+) with IGNORECASE needs one roman or one digit
character at the front (the + closure is satisfied by a single character
under prefix matching). -/
def romanOrDigitHead : List Char → Bool
  | c :: _ => isIvxChar c || c.isDigit
  | [] => false

/-- The lowered keyword alternation of pattern 1 (note: no PART). -/
def kwCodeList : List (List Char) :=
  [['a','r','t','i','c','l','e'], ['s','e','c','t','i','o','n'],
    ['c','h','a','p','t','e','r']]

/-- The lowered boilerplate alternation of pattern 4. -/
def boilerList : List (List Char) :=
  [['w','h','e','r','e','a','s'], ['t','h','e','r','e','f','o','r','e'],
    ['n','o','w',' ','t','h','e','r','e','f','o','r','e']]

/-- The lowered legal-topic stems of pattern 5; the optional plural group
makes the singular stem sufficient under prefix matching. -/
def topicList : List (List Char) :=
  [['d','e','f','i','n','i','t','i','o','n'],
    ['o','b','l','i','g','a','t','i','o','n'],
    ['r','e','p','r','e','s','e','n','t','a','t','i','o','n'],
    ['w','a','r','r','a','n','t','i','e'],
    ['t','e','r','m','i','n','a','t','i','o','n'],
    ['l','i','a','b','i','l','i','t','y'],
    ['c','o','n','f','i','d','e','n','t','i','a','l','i','t','y']]

/-- Pattern 1: (ARTICLE|Article|SECTION|Section|CHAPTER|Chapter)\s+([IVX]+|\d+)
after \s*, case-insensitively. -/
def patKw (l : List Char) : Bool :=
  match ciDropAny kwCodeList (dropWS l) with
  | some (c :: rest) => isWS c && romanOrDigitHead (dropWS rest)
  | _ => false

/-- Pattern 2: (\d+)\.\s*([A-Z][^.]*\.?) with IGNORECASE: digits, a dot,
optional whitespace, then any ASCII letter (the remainder always matches). -/
def patNum (l : List Char) : Bool :=
  !((dropWS l).takeWhile Char.isDigit).isEmpty &&
    match (dropWS l).dropWhile Char.isDigit with
    | x :: rest2 =>
      x = '.' &&
        match dropWS rest2 with
        | c :: _ => c.isAlpha
        | [] => false
    | [] => false

/-- Pattern 3: ([A-Z][A-Z\s]\x7b3,\x7d)\s*$ with IGNORECASE: after \s* a
letter, then at least three more characters, all of them letters or
whitespace up to the end of the string. -/
def patCaps (l : List Char) : Bool :=
  match dropWS l with
  | c :: t => c.isAlpha && t.all (fun x => x.isAlpha || isWS x) && 3 ≤ t.length
  | [] => false

/-- Pattern 4: (WHEREAS|THEREFORE|NOW THEREFORE), case-insensitively. -/
def patBoiler (l : List Char) : Bool :=
  (ciDropAny boilerList (dropWS l)).isSome

/-- Pattern 5: the legal-topic keywords. -/
def patTopic (l : List Char) : Bool :=
  (ciDropAny topicList (dropWS l)).isSome

/-- Pattern 6: \([a-z]\) with IGNORECASE: a parenthesised single letter. -/
def patParenLetter (l : List Char) : Bool :=
  match dropWS l with
  | a :: c :: b :: _ => a = '(' && b = ')' && c.isAlpha
  | _ => false

/-- Pattern 7: \([0-9]+\): a parenthesised digit run. -/
def patParenNum (l : List Char) : Bool :=
  match dropWS l with
  | a :: r =>
    a = '(' && !(r.takeWhile Char.isDigit).isEmpty &&
      match r.dropWhile Char.isDigit with
      | b :: _ => b = ')'
      | [] => false
  | [] => false

/-- LegalDocumentChunker.is_section_header: strip the line, reject short
lines, then try the seven patterns (all matched with re.IGNORECASE). -/
def is_section_header (line : String) : Bool :=
  let l := pyStripChars line.data
  if l.length < 3 then false
  else patKw l || patNum l || patCaps l || patBoiler l || patTopic l ||
    patParenLetter l || patParenNum l

/-! ## The specification's header patterns, as the spec words them

specSectionHeader is NOT translated from the code: it follows the spec
sentence "A line is a header if it matches any of: (a) an all-caps run of
length ≥4, (b) a leading ARTICLE/SECTION/CHAPTER/PART keyword plus a
roman-numeral or arabic number, (c) a numbered-clause pattern followed by a
capitalized word, (d) WHEREAS/THEREFORE/NOW THEREFORE, (e) known
legal-topic keywords at line start, (f) a lettered or numbered sub-clause
marker", for comparison against is_section_header. -/

/-- Case-sensitive literal keyword at the front. -/
def csDropKw : List Char → List Char → Option (List Char)
  | [], rest => some rest
  | _ :: _, [] => none
  | k :: ks, c :: cs => if c = k then csDropKw ks cs else none

/-- One of several case-sensitive keywords at the front. -/
def csDropAny (kws : List (List Char)) (l : List Char) : Option (List Char) :=
  match kws with
  | [] => none
  | kw :: rest =>
    match csDropKw kw l with
    | some r => some r
    | none => csDropAny rest l

/-- Spec pattern (a): the stripped line is an all-caps run (upper-case
letters and spaces) of length at least 4. -/
def specCapsA (l : List Char) : Bool :=
  match l with
  | c :: t => c.isUpper && t.all (fun x => x.isUpper || x = ' ') && 3 ≤ t.length
  | [] => false

/-- Spec pattern (b): a leading ARTICLE/SECTION/CHAPTER/PART keyword plus a
roman or arabic number. -/
def specKwB (l : List Char) : Bool :=
  match csDropAny ["ARTICLE".data, "Article".data, "SECTION".data,
      "Section".data, "CHAPTER".data, "Chapter".data, "PART".data,
      "Part".data] l with
  | some (c :: rest) => isWS c && romanOrDigitHead (dropWS rest)
  | _ => false

/-- Spec pattern (c): a numbered clause, digits and a dot, followed by a
capitalized word. -/
def specNumC (l : List Char) : Bool :=
  let ds := l.takeWhile Char.isDigit
  !ds.isEmpty &&
    match l.dropWhile Char.isDigit with
    | x :: rest =>
      x = '.' &&
        match dropWS rest with
        | c :: _ => c.isUpper
        | [] => false
    | [] => false

/-- Spec pattern (d): the boilerplate openers. -/
def specBoilerD (l : List Char) : Bool :=
  (csDropAny ["WHEREAS".data, "THEREFORE".data, "NOW THEREFORE".data] l).isSome

/-- Spec pattern (e): the listed legal-topic keywords at line start. -/
def specTopicE (l : List Char) : Bool :=
  (csDropAny ["Definitions".data, "Obligations".data, "Representations".data,
      "Warranties".data, "Termination".data, "Liability".data,
      "Confidentiality".data] l).isSome

/-- Spec pattern (f): a lettered or numbered sub-clause marker "(a)" / "(1)". -/
def specSubF (l : List Char) : Bool :=
  (match l with
   | a :: c :: b :: _ => a = '(' && b = ')' && 'a' ≤ c && c ≤ 'z'
   | _ => false) ||
  (match l with
   | a :: r =>
     a = '(' &&
       let ds := r.takeWhile Char.isDigit
       (!ds.isEmpty &&
         match r.dropWhile Char.isDigit with
         | b :: _ => b = ')'
         | [] => false)
   | [] => false)

/-- The spec's header classifier, claim C2's six patterns on the stripped
line. -/
def specSectionHeader (line : String) : Bool :=
  let l := pyStripChars line.data
  specCapsA l || specKwB l || specNumC l || specBoilerD l || specTopicE l ||
    specSubF l

/-! ## Declarative readings of the code's seven case-insensitive patterns

These propositions restate each compiled regex of legal_section_patterns as
a decomposition of the character list, used for the corrected form of claim
C2 (the code matches case-insensitively, with no PART keyword and no
capitalization requirement after a clause number). -/

/-- Reading of pattern 1: an ARTICLE/SECTION/CHAPTER keyword in any case,
whitespace, then a roman-numeral or digit character. -/
def PropKw (l : List Char) : Prop :=
  ∃ kw ∈ kwCodeList, ∃ pre c rest, dropWS l = pre ++ c :: rest ∧
    pre.map Char.toLower = kw ∧ isWS c = true ∧
    romanOrDigitHead (dropWS rest) = true

/-- Reading of pattern 2: a digit run, a dot, then (after whitespace) any
letter, of either case. -/
def PropNum (l : List Char) : Prop :=
  ∃ ds rest, dropWS l = ds ++ '.' :: rest ∧ ds ≠ [] ∧
    (∀ c ∈ ds, c.isDigit = true) ∧
    ∃ d t, dropWS rest = d :: t ∧ d.isAlpha = true

/-- Reading of pattern 3: a run of letters (either case) and whitespace of
length at least 4, starting with a letter, spanning the whole line. -/
def PropCaps (l : List Char) : Prop :=
  ∃ c t, dropWS l = c :: t ∧ c.isAlpha = true ∧
    (∀ x ∈ t, x.isAlpha = true ∨ isWS x = true) ∧ 3 ≤ t.length

/-- Reading of pattern 4: a boilerplate opener in any case. -/
def PropBoiler (l : List Char) : Prop :=
  ∃ kw ∈ boilerList, ∃ pre rest, dropWS l = pre ++ rest ∧
    pre.map Char.toLower = kw

/-- Reading of pattern 5: a legal-topic stem in any case. -/
def PropTopic (l : List Char) : Prop :=
  ∃ kw ∈ topicList, ∃ pre rest, dropWS l = pre ++ rest ∧
    pre.map Char.toLower = kw

/-- Reading of pattern 6: a parenthesised letter of either case. -/
def PropParenLetter (l : List Char) : Prop :=
  ∃ c rest, dropWS l = '(' :: c :: ')' :: rest ∧ c.isAlpha = true

/-- Reading of pattern 7: a parenthesised digit run. -/
def PropParenNum (l : List Char) : Prop :=
  ∃ ds rest, dropWS l = '(' :: (ds ++ ')' :: rest) ∧ ds ≠ [] ∧
    ∀ c ∈ ds, c.isDigit = true

/-! ## Hierarchy tracking of extract_hierarchical_sections -/

/-- re.match(r'^\s*(ARTICLE|SECTION|CHAPTER)', line, re.IGNORECASE). -/
def hierKeyword (line : String) : Bool :=
  (ciDropAny kwCodeList (dropWS line.data)).isSome

/-- re.match(r'^\s*\d+\.', line): digits then a dot (case flag irrelevant). -/
def hierNumbered (line : String) : Bool :=
  let r := dropWS line.data
  !(r.takeWhile Char.isDigit).isEmpty &&
    match r.dropWhile Char.isDigit with
    | x :: _ => x = '.'
    | [] => false

/-- re.match(r'^\s*\([a-z]\)', line): no IGNORECASE here, lowercase only. -/
def hierLetter (line : String) : Bool :=
  match dropWS line.data with
  | a :: c :: b :: _ => a = '(' && b = ')' && 'a' ≤ c && c ≤ 'z'
  | _ => false

/-! ## Sections and hierarchical extraction -/

/-- One element of the list extract_hierarchical_sections returns; the
token_count field is filled by the external tiktoken encoder, passed in as
count_tokens. -/
structure Section where
  section_title : String
  content : String
  hierarchy : List String
  line_start : Nat
  line_end : Nat
  token_count : Nat
  deriving Repr, DecidableEq

/-- The loop state of extract_hierarchical_sections: the pending header (None
before the first header), the accumulated body lines, the hierarchy stack and
the sections emitted so far. -/
structure SegState where
  cur : Option String
  content : List String
  hier : List String
  secs : List Section
  deriving Repr, DecidableEq

/-- Python truthiness of the Optional[str] current_section. -/
def pyTruthy : Option String → Bool
  | some t => !(t = "")
  | none => false

/-- The flush step of extract_hierarchical_sections: 'if current_section and
current_content: content = " ".join(current_content).strip(); if content:
sections.append(...)'.  i is the enumerate index at flush time (or the total
line count for the final flush), giving line_start = i - len(current_content)
and line_end = i - 1. -/
def flushSecs (count_tokens : String → Nat) (st : SegState) (i : Nat) : List Section :=
  if pyTruthy st.cur && !st.content.isEmpty then
    let c := pyStrip (joinWords st.content)
    if c = "" then st.secs
    else
      st.secs ++ [⟨st.cur.getD "", c, st.hier, i - st.content.length, i - 1,
        count_tokens c⟩]
  else st.secs

/-- One iteration of the extract_hierarchical_sections loop body at
enumerate index i. -/
def segStep (count_tokens : String → Nat) (st : SegState) (i : Nat)
    (rawLine : String) : SegState :=
  let line := pyStrip rawLine
  if line = "" then st
  else if is_section_header line then
    let secs := flushSecs count_tokens st i
    let hier :=
      if hierKeyword line then [line]
      else if hierNumbered line then st.hier.take 1 ++ [line]
      else if hierLetter line then st.hier.take 2 ++ [line]
      else st.hier ++ [line]
    ⟨some line, [], hier, secs⟩
  else { st with content := st.content ++ [line] }

/-- LegalDocumentChunker.extract_hierarchical_sections: split into lines,
run the classifying loop, then flush the final in-progress section. -/
def extract_hierarchical_sections (count_tokens : String → Nat)
    (text : String) : List Section :=
  let lines := pyLines text
  let st := lines.enum.foldl
    (fun st p => segStep count_tokens st p.1 p.2) ⟨none, [], [], []⟩
  flushSecs count_tokens st lines.length

/-! ## Chunks and create_overlapping_chunks -/

/-- A chunk dict.  Keys the Python code only sometimes adds are Options with
none for an absent key; line_start/line_end are present on section.copy()
chunks and absent on split chunks. -/
structure Chunk where
  section_title : String
  content : String
  hierarchy : List String
  line_start : Option Nat
  line_end : Option Nat
  token_count : Nat
  has_overlap : Option Bool
  overlap_source : Option String
  is_split : Option Bool
  part_number : Option Nat
  total_parts : Option Nat
  deriving Repr, DecidableEq

/-- chunk = section.copy(): every key of the section dict, no extra keys. -/
def Section.toChunk (s : Section) : Chunk :=
  ⟨s.section_title, s.content, s.hierarchy, some s.line_start, some s.line_end,
    s.token_count, none, none, none, none, none⟩

/-- The loop body of the oversized-section split path: the piece of
chunk_size words starting at word offset j, prefixed for j > 0 with the
overlap_size words of the original word sequence ending at j
(words[max(0, j - overlap_size):j]), with title " (Part k)", part counters
and a re-measured token_count. -/
def splitChunkAt (count_tokens : String → Nat) (s : Section)
    (words : List String) (chunk_size overlap_size j : Nat) : Chunk :=
  let chunk_content := joinWords ((words.drop j).take chunk_size)
  let chunk_content :=
    if 0 < j then
      joinWords ((words.take j).drop (j - overlap_size)) ++ " " ++ chunk_content
    else chunk_content
  ⟨s.section_title ++ " (Part " ++ toString (j / chunk_size + 1) ++ ")",
    chunk_content, s.hierarchy, none, none, count_tokens chunk_content,
    some (decide (0 < j)), none, some true, some (j / chunk_size + 1),
    some ((words.length + chunk_size - 1) / chunk_size)⟩

/-- The body of create_overlapping_chunks for one section, given the previous
section of the input list if any: either the small-section path (copy, then
maybe prepend word overlap taken from the previous section) or the split path
(word slices of size max_tokens - 50 with overlap re-sampled from the
original word sequence). -/
def sectionChunks (count_tokens : String → Nat) (max_tokens pnum pden : Nat)
    (prev : Option Section) (s : Section) : List Chunk :=
  if s.token_count ≤ max_tokens then
    let chunk := s.toChunk
    let chunk :=
      match prev with
      | some p =>
        if 0 < p.token_count then
          if 0 < pyIntMul (count_tokens p.content) pnum pden then
            ({ chunk with
                content := joinWords (pyLastWords
                  (pyIntMul (count_tokens p.content) pnum pden)
                  (pyWords p.content)) ++ " " ++ s.content,
                has_overlap := some true,
                overlap_source := some p.section_title } : Chunk)
          else chunk
        else chunk
      | none => chunk
    [chunk]
  else
    let words := pyWords s.content
    let chunk_size := max_tokens - 50
    (pyRange 0 words.length chunk_size).map
      (splitChunkAt count_tokens s words chunk_size
        (pyIntMul chunk_size pnum pden))

/-- The enumerate loop of create_overlapping_chunks, threading the previous
section of the input list. -/
def chunksAux (count_tokens : String → Nat) (max_tokens pnum pden : Nat) :
    Option Section → List Section → List Chunk
  | _, [] => []
  | prev, s :: rest =>
    sectionChunks count_tokens max_tokens pnum pden prev s ++
      chunksAux count_tokens max_tokens pnum pden (some s) rest

/-- LegalDocumentChunker.create_overlapping_chunks, with the
overlap_percentage float carried as the exact fraction pnum/pden. -/
def create_overlapping_chunks (count_tokens : String → Nat)
    (max_tokens pnum pden : Nat) (sections : List Section) : List Chunk :=
  chunksAux count_tokens max_tokens pnum pden none sections

/-- Stand-in for the external tiktoken encoding when the development is
evaluated at concrete inputs: the whitespace word count.  The encoder's exact
values never matter to those evaluations beyond being small on the short
literals involved, which holds of the real encoding as well; all general
theorems quantify over the count_tokens function instead. -/
def countTokensModel (s : String) : Nat := (pyWords s).length

/-! ## faiss_integration.py: index build

The OpenAI embedding client is the parameter embed (none models the call
raising), faiss.normalize_L2 is the parameter normalize (it rescales each
row in place, so it never changes how many vectors the index holds), and
what faiss.write_index / pickle.dump persist is returned explicitly. -/

/-- A section dict as consumed by create_faiss_embeddings (the
extract_pdf_sections shape; .get defaults make every key total). -/
structure FSection where
  section_title : String
  content : String
  page_start : ℤ
  page_end : ℤ
  token_count : Nat
  hierarchy_level : ℤ
  deriving Repr, DecidableEq

/-- One stored metadata record; contains_definitions/obligations/dates are
always written as None by the code. -/
structure MetaRecord where
  section_index : Nat
  section_title : String
  content : String
  page_start : ℤ
  page_end : ℤ
  token_count : Nat
  hierarchy_level : ℤ
  contains_definitions : Option Bool
  contains_obligations : Option Bool
  contains_dates : Option Bool
  file_id : String
  filename : String
  deriving Repr, DecidableEq

/-- create_embedding_batch: embed each section of the batch in order; a call
that raises is logged and skipped (continue), contributing nothing. -/
def create_embedding_batch (embed : String → Option (List ℤ)) :
    List FSection → Nat → List (List ℤ × Nat)
  | [], _ => []
  | s :: rest, idx =>
    match embed s.content with
    | some e => (e, idx) :: create_embedding_batch embed rest (idx + 1)
    | none => create_embedding_batch embed rest (idx + 1)

/-- The metadata dict built for the successful embedding of sections[idx]. -/
def mkMeta (sections : List FSection) (file_id filename : String) (idx : Nat) :
    MetaRecord :=
  let sd := sections.getD idx ⟨"", "", 0, 0, 0, 0⟩
  ⟨idx, sd.section_title, sd.content, sd.page_start, sd.page_end,
    sd.token_count, sd.hierarchy_level, none, none, none, file_id, filename⟩

/-- create_faiss_embeddings: batches of 10 are embedded (executor.map keeps
input order, so the thread pool is semantically a map), the successful items
are flattened into the parallel vector and metadata arrays, and both are
persisted unless no embedding succeeded (then nothing is written and 0 is
returned).  The Nat component is the returned token total. -/
def create_faiss_embeddings (embed : String → Option (List ℤ))
    (normalize : List ℤ → List ℤ) (sections : List FSection)
    (file_id filename : String) :
    Option (List (List ℤ) × List MetaRecord) × Nat :=
  let batches := (pyRange 0 sections.length 10).map
    fun i => ((sections.drop i).take 10, i)
  let results := batches.map fun b => create_embedding_batch embed b.1 b.2
  let items := results.flatten
  let all_embeddings := items.map fun it => it.1
  let metadata := items.map fun it => mkMeta sections file_id filename it.2
  if all_embeddings.isEmpty then (none, 0)
  else (some (all_embeddings.map normalize, metadata),
    (metadata.map fun m => m.token_count).sum)

/-! ## faiss_integration.py: similarity search -/

/-- Inner product of two stored vectors. -/
def dotZ (u v : List ℤ) : ℤ := ((u.zip v).map fun p => p.1 * p.2).sum

/-- The score -FLT_MAX that faiss pads results with when the index holds
fewer vectors than were requested. -/
def negFltMax : ℤ := -(340282346638528859811704183484516925440 : ℤ)

/-- Insertion into a list sorted by the given total Bool order. -/
def insertBy {α : Type} (le : α → α → Bool) (a : α) : List α → List α
  | [] => [a]
  | b :: rest => if le a b then a :: b :: rest else b :: insertBy le a rest

/-- Insertion sort (used to model the exact flat-index search ranking). -/
def sortBy {α : Type} (le : α → α → Bool) : List α → List α
  | [] => []
  | a :: rest => insertBy le a (sortBy le rest)

/-- Whether hit a ranks at least as high as hit b: higher inner product
first, ties by lower vector id. -/
def hitLE (a b : ℤ × ℤ) : Bool := b.1 < a.1 || (a.1 = b.1 && a.2 ≤ b.2)

/-- index.search(query_vector, k) on an IndexFlatIP holding vecs: scores of
every stored vector, sorted descending, truncated to k and padded to exactly
k entries with (-FLT_MAX, -1) when fewer vectors exist. -/
def faissSearch (vecs : List (List ℤ)) (qv : List ℤ) (k : Nat) :
    List (ℤ × ℤ) :=
  let scored := vecs.enum.map fun p => (dotZ qv p.2, (p.1 : ℤ))
  (sortBy hitLE scored).take k ++
    List.replicate (k - vecs.length) (negFltMax, -1)

/-- The result loop of search_similar_sections: keep hits with idx <
len(metadata) (the -1 padding passes this test and reads the LAST record via
Python negative indexing); a metadata lookup that raises IndexError aborts
the whole call (none). -/
def collectResults (metadata : List MetaRecord) :
    List (ℤ × ℤ) → Option (List (MetaRecord × ℤ))
  | [] => some []
  | (score, idx) :: rest =>
    if idx < (metadata.length : ℤ) then
      match pyGetIdx metadata idx with
      | none => none
      | some m => (collectResults metadata rest).map fun rs => (m, score) :: rs
    else collectResults metadata rest

/-- search_similar_sections: load the per-document index (store = none models
a missing index file), embed the query, search with the given limit and
collect the results; any raised error is caught and yields []. -/
def search_similar_sections (embed : String → Option (List ℤ))
    (normalize : List ℤ → List ℤ)
    (store : Option (List (List ℤ) × List MetaRecord))
    (query : String) (limit : Nat) : List (MetaRecord × ℤ) :=
  match store with
  | none => []
  | some (vecs, metadata) =>
    match embed query with
    | none => []
    | some qe =>
      match collectResults metadata (faissSearch vecs (normalize qe) limit) with
      | none => []
      | some rs => rs

/-- The filters dict: apply_filters reads exactly the keys page_range and
section_index (generate_prefilters produces no others). -/
structure Filters where
  page_range : Option (ℤ × ℤ)
  section_index : Option ℤ
  deriving Repr, DecidableEq

/-- apply_filters: every supplied predicate must hold. -/
def apply_filters (item : MetaRecord) (filters : Filters) : Bool :=
  (match filters.page_range with
   | some (ps, pe) =>
     (ps ≤ item.page_start && item.page_start ≤ pe) ||
       (ps ≤ item.page_end && item.page_end ≤ pe)
   | none => true) &&
  (match filters.section_index with
   | some k => (item.section_index : ℤ) = k
   | none => true)

/-- The result loop of filtered_vector_search: position i counts every hit,
only hits whose idx is a filtered index and with i < 3 are kept; a raising
lookup aborts (none). -/
def collectFiltered (metadata : List MetaRecord) (fi : List ℤ) :
    Nat → List (ℤ × ℤ) → Option (List (MetaRecord × ℤ))
  | _, [] => some []
  | i, (score, idx) :: rest =>
    if fi.contains idx && i < 3 then
      match pyGetIdx metadata idx with
      | none => none
      | some m =>
        (collectFiltered metadata fi (i + 1) rest).map fun rs => (m, score) :: rs
    else collectFiltered metadata fi (i + 1) rest

/-- filtered_vector_search: restrict to the metadata records passing
apply_filters; when none passes fall back to an unfiltered
search_similar_sections with limit 3, likewise when anything raises
(including an index that fails to load or an embedding failure). -/
def filtered_vector_search (embed : String → Option (List ℤ))
    (normalize : List ℤ → List ℤ)
    (store : Option (List (List ℤ) × List MetaRecord))
    (query : String) (filters : Filters) : List (MetaRecord × ℤ) :=
  match store with
  | none => search_similar_sections embed normalize none query 3
  | some (vecs, metadata) =>
    let filtered_indices := (metadata.enum.filter fun p =>
      apply_filters p.2 filters).map fun p => (p.1 : ℤ)
    if filtered_indices.isEmpty then
      search_similar_sections embed normalize store query 3
    else
      match embed query with
      | none => search_similar_sections embed normalize store query 3
      | some qe =>
        match collectFiltered metadata filtered_indices 0
            (faissSearch vecs (normalize qe) filtered_indices.length) with
        | none => search_similar_sections embed normalize store query 3
        | some rs => rs

/-! ## nodes/routing.py -/

/-- route_query: the session's file list is read first; with no files the
route is "general" without consulting the classifier.  The classifier (an
LLM chain) may raise (.error) or return any string; its answer is stripped,
lowercased and replaced by "general" unless it is one of the three labels.
Any raised error is caught and also yields "general". -/
def route_query (session_files : List String)
    (classify : Except String String) : String :=
  if session_files.isEmpty then "general"
  else
    match classify with
    | .error _ => "general"
    | .ok decision =>
      let d := pyLower (pyStrip decision)
      if d = "document" || d = "general" || d = "hybrid" then d else "general"

/-! # Lemmas

Supporting lemmas; the claim theorems come at the end of the file. -/

theorem ciDropKw_iff (kw l r : List Char) :
    ciDropKw kw l = some r ↔ ∃ pre, l = pre ++ r ∧ pre.map Char.toLower = kw := by
  induction kw generalizing l with
  | nil =>
    simp only [ciDropKw, Option.some.injEq]
    constructor
    · rintro rfl; exact ⟨[], rfl, rfl⟩
    · rintro ⟨pre, rfl, hm⟩
      simp only [List.map_eq_nil_iff] at hm
      simp [hm]
  | cons k ks ih =>
    cases l with
    | nil =>
      simp only [ciDropKw]
      constructor
      · intro h; exact absurd h (by simp)
      · rintro ⟨pre, hl, hm⟩
        cases pre with
        | nil => simp at hm
        | cons p ps => simp at hl
    | cons c cs =>
      simp only [ciDropKw]
      by_cases hc : c.toLower = k
      · rw [if_pos hc, ih]
        constructor
        · rintro ⟨pre, rfl, hm⟩
          exact ⟨c :: pre, rfl, by simp [hm, hc]⟩
        · rintro ⟨pre, hl, hm⟩
          cases pre with
          | nil => simp at hm
          | cons p ps =>
            simp only [List.cons_append, List.cons.injEq] at hl
            simp only [List.map_cons, List.cons.injEq] at hm
            exact ⟨ps, hl.2, hm.2⟩
      · rw [if_neg hc]
        constructor
        · intro h; exact absurd h (by simp)
        · rintro ⟨pre, hl, hm⟩
          cases pre with
          | nil => simp at hm
          | cons p ps =>
            simp only [List.cons_append, List.cons.injEq] at hl
            simp only [List.map_cons, List.cons.injEq] at hm
            refine absurd ?_ hc
            rw [hl.1]; exact hm.1

theorem ciDropAny_isSome_iff (kws : List (List Char)) (l : List Char) :
    (ciDropAny kws l).isSome = true ↔
      ∃ kw ∈ kws, ∃ pre rest, l = pre ++ rest ∧ pre.map Char.toLower = kw := by
  induction kws with
  | nil => simp [ciDropAny]
  | cons kw rest ih =>
    rw [ciDropAny]
    cases h : ciDropKw kw l with
    | some r =>
      obtain ⟨pre, hl, hm⟩ := (ciDropKw_iff kw l r).mp h
      simp only [Option.isSome_some, true_iff]
      exact ⟨kw, by simp, pre, r, hl, hm⟩
    | none =>
      rw [ih]
      constructor
      · rintro ⟨kw', hmem, pre, r, hl, hm⟩
        exact ⟨kw', by simp [hmem], pre, r, hl, hm⟩
      · rintro ⟨kw', hmem, pre, r, hl, hm⟩
        rcases List.mem_cons.mp hmem with rfl | hmem'
        · exact absurd ((ciDropKw_iff kw' l r).mpr ⟨pre, hl, hm⟩) (by simp [h])
        · exact ⟨kw', hmem', pre, r, hl, hm⟩

theorem takeWhile_all_append (p : Char → Bool) (ds : List Char) (x : Char)
    (r : List Char) (hds : ∀ c ∈ ds, p c = true) (hx : p x = false) :
    (ds ++ x :: r).takeWhile p = ds := by
  induction ds with
  | nil => simp [List.takeWhile, hx]
  | cons d dt ih =>
    have hd : p d = true := hds d (by simp)
    simp only [List.cons_append, List.takeWhile_cons, hd]
    simp [ih fun c hc => hds c (by simp [hc])]

theorem dropWhile_all_append (p : Char → Bool) (ds : List Char) (x : Char)
    (r : List Char) (hds : ∀ c ∈ ds, p c = true) (hx : p x = false) :
    (ds ++ x :: r).dropWhile p = x :: r := by
  induction ds with
  | nil => simp [List.dropWhile, hx]
  | cons d dt ih =>
    have hd : p d = true := hds d (by simp)
    simp only [List.cons_append, List.dropWhile_cons, hd]
    simp [ih fun c hc => hds c (by simp [hc])]

theorem patNum_iff (l : List Char) : patNum l = true ↔ PropNum l := by
  unfold patNum PropNum
  constructor
  · intro h
    simp only [Bool.and_eq_true] at h
    obtain ⟨hne, hrest⟩ := h
    cases hr : (dropWS l).dropWhile Char.isDigit with
    | nil => rw [hr] at hrest; simp at hrest
    | cons x rest =>
      rw [hr] at hrest
      simp only [Bool.and_eq_true, decide_eq_true_eq] at hrest
      obtain ⟨rfl, hrest⟩ := hrest
      cases hd : dropWS rest with
      | nil => rw [hd] at hrest; simp at hrest
      | cons d t =>
        rw [hd] at hrest
        refine ⟨(dropWS l).takeWhile Char.isDigit, rest, ?_, ?_, ?_, d, t, hd, hrest⟩
        · conv_lhs =>
            rw [← List.takeWhile_append_dropWhile (p := Char.isDigit) (l := dropWS l)]
          rw [hr]
        · intro hcon; rw [hcon] at hne; simp at hne
        · intro c hc; exact List.mem_takeWhile_imp hc
  · rintro ⟨ds, rest, hl, hne, hds, d, t, hd, halpha⟩
    have ht := takeWhile_all_append Char.isDigit ds '.' rest hds (by decide)
    have hdr := dropWhile_all_append Char.isDigit ds '.' rest hds (by decide)
    rw [hl, ht, hdr]
    simp [hd, hne, halpha]

theorem patCaps_iff (l : List Char) : patCaps l = true ↔ PropCaps l := by
  unfold patCaps PropCaps
  cases h : dropWS l with
  | nil => simp
  | cons c t =>
    simp only [Bool.and_eq_true, List.all_eq_true, Bool.or_eq_true,
      decide_eq_true_eq]
    constructor
    · rintro ⟨⟨ha, hall⟩, hlen⟩
      exact ⟨c, t, rfl, ha, hall, hlen⟩
    · rintro ⟨c', t', heq, ha, hall, hlen⟩
      injection heq with h1 h2
      subst h1; subst h2
      exact ⟨⟨ha, hall⟩, hlen⟩

theorem patParenLetter_iff (l : List Char) :
    patParenLetter l = true ↔ PropParenLetter l := by
  unfold patParenLetter PropParenLetter
  cases h : dropWS l with
  | nil => simp
  | cons a t =>
    cases t with
    | nil => simp
    | cons c t2 =>
      cases t2 with
      | nil => simp
      | cons b rest =>
        simp only [Bool.and_eq_true, decide_eq_true_eq]
        constructor
        · rintro ⟨⟨rfl, rfl⟩, ha⟩
          exact ⟨c, rest, rfl, ha⟩
        · rintro ⟨c', rest', heq, ha⟩
          injection heq with e1 e2
          injection e2 with e3 e4
          injection e4 with e5 e6
          subst e1; subst e3; subst e5
          exact ⟨⟨rfl, rfl⟩, ha⟩

theorem patParenNum_iff (l : List Char) : patParenNum l = true ↔ PropParenNum l := by
  unfold patParenNum PropParenNum
  cases h : dropWS l with
  | nil => simp
  | cons a r =>
    simp only [Bool.and_eq_true, decide_eq_true_eq]
    constructor
    · rintro ⟨⟨rfl, hne⟩, hrest⟩
      cases hr : r.dropWhile Char.isDigit with
      | nil => rw [hr] at hrest; simp at hrest
      | cons b rest =>
        rw [hr] at hrest
        simp only [decide_eq_true_eq] at hrest
        subst hrest
        refine ⟨r.takeWhile Char.isDigit, rest, ?_, ?_, ?_⟩
        · congr 1
          conv_lhs => rw [← List.takeWhile_append_dropWhile (p := Char.isDigit) (l := r)]
          rw [hr]
        · intro hcon; rw [hcon] at hne; simp at hne
        · intro c hc; exact List.mem_takeWhile_imp hc
    · rintro ⟨ds, rest, heq, hne, hds⟩
      injection heq with e1 e2
      subst e1
      have ht := takeWhile_all_append Char.isDigit ds ')' rest hds (by decide)
      have hdr := dropWhile_all_append Char.isDigit ds ')' rest hds (by decide)
      rw [e2, ht, hdr]
      simp [hne]

theorem ciDropAny_some_mem (kws : List (List Char)) (l r : List Char)
    (h : ciDropAny kws l = some r) : ∃ kw ∈ kws, ciDropKw kw l = some r := by
  induction kws with
  | nil => simp [ciDropAny] at h
  | cons kw rest ih =>
    rw [ciDropAny] at h
    cases hk : ciDropKw kw l with
    | some r' =>
      rw [hk] at h
      dsimp only at h
      exact ⟨kw, by simp, by rw [hk]; exact h⟩
    | none =>
      rw [hk] at h
      dsimp only at h
      obtain ⟨kw', hmem, hk'⟩ := ih h
      exact ⟨kw', by simp [hmem], hk'⟩

theorem ciDropKw_cons_ne {k0 c0 : Char} (ks t : List Char)
    (hne : c0.toLower ≠ k0) : ciDropKw (k0 :: ks) (c0 :: t) = none := by
  simp [ciDropKw, hne]

theorem patKw_iff (l : List Char) : patKw l = true ↔ PropKw l := by
  constructor
  · intro hp
    unfold patKw at hp
    cases h : ciDropAny kwCodeList (dropWS l) with
    | none => rw [h] at hp; simp at hp
    | some r =>
      rw [h] at hp
      cases r with
      | nil => simp at hp
      | cons c rest =>
        simp only [Bool.and_eq_true] at hp
        obtain ⟨kw, hmem, hk⟩ := ciDropAny_some_mem kwCodeList (dropWS l) _ h
        obtain ⟨pre, hdec, hmap⟩ := (ciDropKw_iff kw (dropWS l) (c :: rest)).mp hk
        exact ⟨kw, hmem, pre, c, rest, hdec, hmap, hp.1, hp.2⟩
  · rintro ⟨kw, hmem, pre, c, rest, hdec, hmap, hws, hroman⟩
    have hk : ciDropKw kw (dropWS l) = some (c :: rest) :=
      (ciDropKw_iff kw (dropWS l) (c :: rest)).mpr ⟨pre, hdec, hmap⟩
    unfold patKw
    simp only [kwCodeList, List.mem_cons, List.mem_singleton,
      List.not_mem_nil, or_false] at hmem
    rcases hmem with rfl | rfl | rfl
    · simp only [kwCodeList, ciDropAny, hk]
      simp [hws, hroman]
    · cases pre with
      | nil => simp at hmap
      | cons p0 ps =>
        simp only [List.map_cons, List.cons.injEq] at hmap
        rw [List.cons_append] at hdec
        have ha : ciDropKw ['a','r','t','i','c','l','e'] (dropWS l) = none := by
          rw [hdec]
          exact ciDropKw_cons_ne _ _ (by rw [hmap.1]; decide)
        simp only [kwCodeList, ciDropAny, ha, hk]
        simp [hws, hroman]
    · cases pre with
      | nil => simp at hmap
      | cons p0 ps =>
        simp only [List.map_cons, List.cons.injEq] at hmap
        rw [List.cons_append] at hdec
        have ha : ciDropKw ['a','r','t','i','c','l','e'] (dropWS l) = none := by
          rw [hdec]
          exact ciDropKw_cons_ne _ _ (by rw [hmap.1]; decide)
        have hs : ciDropKw ['s','e','c','t','i','o','n'] (dropWS l) = none := by
          rw [hdec]
          exact ciDropKw_cons_ne _ _ (by rw [hmap.1]; decide)
        simp only [kwCodeList, ciDropAny, ha, hs, hk]
        simp [hws, hroman]

theorem patBoiler_iff (l : List Char) : patBoiler l = true ↔ PropBoiler l := by
  unfold patBoiler PropBoiler boilerList
  rw [ciDropAny_isSome_iff]

theorem patTopic_iff (l : List Char) : patTopic l = true ↔ PropTopic l := by
  unfold patTopic PropTopic topicList
  rw [ciDropAny_isSome_iff]

/-! # Claim C2 -/

/-- C2, counterexample: the code classifies the all-lowercase body line
"hello world" as a header (re.IGNORECASE makes the all-caps pattern accept
any letters) although it matches none of the six spec patterns, and it does
not classify "PART 1" as a header although the spec's keyword pattern (b)
accepts it (the code's keyword alternation has no PART).  So the classifier
does not agree with the spec's six patterns, in either direction. -/
theorem C2_counterexample :
    is_section_header "hello world" = true ∧
      specSectionHeader "hello world" = false ∧
      is_section_header "PART 1" = false ∧
      specSectionHeader "PART 1" = true := by decide

/-- C2 (amended): a line is classified as a section header exactly when its
stripped form still has at least 3 characters and matches one of the seven
code patterns, every one applied case-insensitively: the keyword pattern
knows only ARTICLE/SECTION/CHAPTER (not PART), the numbered-clause pattern
accepts any letter after the number (not only a capitalized word), and the
all-caps pattern accepts any run of letters and whitespace of length at
least 4 — so an ordinary lowercase body line without punctuation IS a
header. -/
theorem C2_header_classification (line : String) :
    is_section_header line = true ↔
      (3 ≤ (pyStripChars line.data).length ∧
        (PropKw (pyStripChars line.data) ∨ PropNum (pyStripChars line.data) ∨
          PropCaps (pyStripChars line.data) ∨
          PropBoiler (pyStripChars line.data) ∨
          PropTopic (pyStripChars line.data) ∨
          PropParenLetter (pyStripChars line.data) ∨
          PropParenNum (pyStripChars line.data))) := by
  have hdef : is_section_header line =
      (if (pyStripChars line.data).length < 3 then false
       else patKw (pyStripChars line.data) || patNum (pyStripChars line.data) ||
         patCaps (pyStripChars line.data) || patBoiler (pyStripChars line.data) ||
         patTopic (pyStripChars line.data) ||
         patParenLetter (pyStripChars line.data) ||
         patParenNum (pyStripChars line.data)) := rfl
  rw [hdef]
  by_cases h : (pyStripChars line.data).length < 3
  · rw [if_pos h]
    simp only [Bool.false_eq_true, false_iff, not_and]
    intro h3
    omega
  · rw [if_neg h]
    simp only [Bool.or_eq_true, patKw_iff, patNum_iff, patCaps_iff,
      patBoiler_iff, patTopic_iff, patParenLetter_iff, patParenNum_iff]
    constructor
    · intro hp
      refine ⟨by omega, ?_⟩
      tauto
    · rintro ⟨-, hp⟩
      tauto

/-! # Claim C1 -/

/-- The segmentation loop invariant: every emitted section and the pending
current_section are titled by lines that passed is_section_header. -/
def SegInv (st : SegState) : Prop :=
  (∀ s ∈ st.secs, is_section_header s.section_title = true) ∧
    (∀ t, st.cur = some t → is_section_header t = true)

theorem flushSecs_titles (count_tokens : String → Nat) (st : SegState) (i : Nat)
    (hinv : SegInv st) :
    ∀ s ∈ flushSecs count_tokens st i, is_section_header s.section_title = true := by
  intro s hs
  unfold flushSecs at hs
  by_cases h1 : pyTruthy st.cur && !st.content.isEmpty
  · rw [if_pos h1] at hs
    by_cases h2 : pyStrip (joinWords st.content) = ""
    · rw [if_pos h2] at hs
      exact hinv.1 s hs
    · rw [if_neg h2] at hs
      rcases List.mem_append.mp hs with hold | hnew
      · exact hinv.1 s hold
      · have hs' : s.section_title = st.cur.getD "" := by
          simp only [List.mem_singleton] at hnew
          rw [hnew]
        rw [hs']
        simp only [Bool.and_eq_true] at h1
        cases hc : st.cur with
        | none => rw [hc] at h1; simp [pyTruthy] at h1
        | some t =>
          simp only [hc, Option.getD_some]
          exact hinv.2 t hc
  · rw [if_neg h1] at hs
    exact hinv.1 s hs

theorem segStep_inv (count_tokens : String → Nat) (st : SegState) (i : Nat)
    (line : String) (hinv : SegInv st) :
    SegInv (segStep count_tokens st i line) := by
  unfold segStep
  by_cases h0 : pyStrip line = ""
  · rw [if_pos h0]; exact hinv
  · rw [if_neg h0]
    by_cases h1 : is_section_header (pyStrip line) = true
    · rw [if_pos h1]
      refine ⟨flushSecs_titles count_tokens st i hinv, ?_⟩
      intro t ht
      simp only [Option.some.injEq] at ht
      rw [← ht]; exact h1
    · rw [if_neg h1]
      exact ⟨hinv.1, hinv.2⟩

theorem segFold_inv (count_tokens : String → Nat) (l : List (Nat × String))
    (st : SegState) (hinv : SegInv st) :
    SegInv (l.foldl (fun st p => segStep count_tokens st p.1 p.2) st) := by
  induction l generalizing st with
  | nil => exact hinv
  | cons p rest ih =>
    exact ih _ (segStep_inv count_tokens st p.1 p.2 hinv)

/-- C1, counterexample: segmenting a text whose first line is plain body
text (no header before it) silently drops that line: the flush guard
requires a non-None current_section, and there is no page-based placeholder
in extract_hierarchical_sections, so the output is a single section holding
only the post-header body. -/
theorem C1_counterexample :
    (extract_hierarchical_sections countTokensModel
        "this is a preamble.\nARTICLE I\nbody text here.").map
        (fun s => (s.section_title, s.content)) =
      [("ARTICLE I", "body text here.")] := by decide

/-- C1 (amended): leading pre-header content IS silently dropped.  Every
section extract_hierarchical_sections emits is titled by a line that passed
is_section_header — there is no placeholder mechanism, so body lines seen
while current_section is still None can never reach the output. -/
theorem C1_no_placeholder_sections (count_tokens : String → Nat) (text : String)
    (s : Section) (hs : s ∈ extract_hierarchical_sections count_tokens text) :
    is_section_header s.section_title = true := by
  unfold extract_hierarchical_sections at hs
  refine flushSecs_titles count_tokens _ _ ?_ s hs
  exact segFold_inv count_tokens _ _ ⟨by simp, by simp⟩

/-- C1, witness: the amended claim evaluated on the counterexample text. -/
theorem C1_witness : is_section_header "ARTICLE I" = true :=
  C1_no_placeholder_sections countTokensModel
    "this is a preamble.\nARTICLE I\nbody text here."
    ⟨"ARTICLE I", "body text here.", ["ARTICLE I"], 2, 2, 3⟩ (by decide)

/-! # Claim C9 -/

/-- C9: segmenting the scenario text yields exactly the two sections
"ARTICLE I" and "ARTICLE II" with their body lines; the (a)/(b) lines are
recognised as headers (so their text reaches no section's content) and,
having empty bodies, are never emitted as sections, whatever the external
token counter returns. -/
theorem C9_scenario (count_tokens : String → Nat) :
    (extract_hierarchical_sections count_tokens
        "ARTICLE I\nThis is the first clause.\n(a) subpoint one.\n(b) subpoint two.\nARTICLE II\nSecond article body.").map
        (fun s => (s.section_title, s.content, s.hierarchy)) =
      [("ARTICLE I", "This is the first clause.", ["ARTICLE I"]),
        ("ARTICLE II", "Second article body.", ["ARTICLE II"])] := by
  rfl

/-! # Claim C8 -/

/-- C8: route_query answers "general" whenever the session has no files,
whenever the classifier raises, and whenever it returns any string outside
the three labels (e.g. "banana"); and for every input the decision is one of
exactly the three labels — the model function is total, reflecting that the
Python body catches every exception. -/
theorem C8_route_fallback :
    (∀ classify : Except String String, route_query [] classify = "general") ∧
    (∀ (files : List String) (e : String),
      route_query files (Except.error e) = "general") ∧
    (∀ files : List String, route_query files (Except.ok "banana") = "general") ∧
    (∀ (files : List String) (classify : Except String String),
      route_query files classify = "document" ∨
        route_query files classify = "general" ∨
        route_query files classify = "hybrid") := by
  refine ⟨fun _ => rfl, fun files e => ?_, fun files => ?_, fun files c => ?_⟩
  · unfold route_query
    split
    · rfl
    · rfl
  · unfold route_query
    split
    · rfl
    · rfl
  · unfold route_query
    split
    · exact Or.inr (Or.inl rfl)
    · cases c with
      | error e => exact Or.inr (Or.inl rfl)
      | ok s =>
        by_cases hcond : (pyLower (pyStrip s) = "document" ||
            pyLower (pyStrip s) = "general" || pyLower (pyStrip s) = "hybrid") = true
        · simp only [hcond, if_true]
          simp only [Bool.or_eq_true, decide_eq_true_eq] at hcond
          rcases hcond with (h | h) | h
          · exact Or.inl h
          · exact Or.inr (Or.inl h)
          · exact Or.inr (Or.inr h)
        · simp only [hcond]
          exact Or.inr (Or.inl (by simp))

/-! # Claims C10, C4, C5: the small-section path -/

/-- Helper: a section that fits max_tokens yields exactly one chunk, a copy
whose fields other than content / has_overlap / overlap_source are those of
the section. -/
theorem sectionChunks_small (count_tokens : String → Nat)
    (max_tokens pnum pden : Nat) (prev : Option Section) (s : Section)
    (h : s.token_count ≤ max_tokens) :
    ∃ c, sectionChunks count_tokens max_tokens pnum pden prev s = [c] ∧
      c.section_title = s.section_title ∧ c.hierarchy = s.hierarchy ∧
      c.line_start = some s.line_start ∧ c.line_end = some s.line_end ∧
      c.token_count = s.token_count ∧ c.is_split = none ∧
      c.part_number = none ∧ c.total_parts = none := by
  unfold sectionChunks
  rw [if_pos h]
  cases prev with
  | none => exact ⟨s.toChunk, rfl, rfl, rfl, rfl, rfl, rfl, rfl, rfl, rfl⟩
  | some p =>
    dsimp only
    by_cases h1 : 0 < p.token_count
    · rw [if_pos h1]
      by_cases h2 : 0 < pyIntMul (count_tokens p.content) pnum pden
      · rw [if_pos h2]
        exact ⟨_, rfl, rfl, rfl, rfl, rfl, rfl, rfl, rfl, rfl⟩
      · rw [if_neg h2]
        exact ⟨s.toChunk, rfl, rfl, rfl, rfl, rfl, rfl, rfl, rfl, rfl⟩
    · rw [if_neg h1]
      exact ⟨s.toChunk, rfl, rfl, rfl, rfl, rfl, rfl, rfl, rfl, rfl⟩

/-- C10: for a section within max_tokens, the emitted chunk keeps the
section's token_count even when an overlap prefix is prepended — overlap
injection only touches content, has_overlap and overlap_source, and adds no
split fields, so the stored token_count never accounts for the injected
words. -/
theorem C10_token_count_frame (count_tokens : String → Nat)
    (max_tokens pnum pden : Nat) (prev : Option Section) (s : Section)
    (h : s.token_count ≤ max_tokens) :
    ∃ c, sectionChunks count_tokens max_tokens pnum pden prev s = [c] ∧
      c.token_count = s.token_count ∧ c.section_title = s.section_title ∧
      c.hierarchy = s.hierarchy ∧ c.line_start = some s.line_start ∧
      c.line_end = some s.line_end ∧ c.is_split = none ∧
      c.part_number = none ∧ c.total_parts = none := by
  obtain ⟨c, hc, h1, h2, h3, h4, h5, h6, h7, h8⟩ :=
    sectionChunks_small count_tokens max_tokens pnum pden prev s h
  exact ⟨c, hc, h5, h1, h2, h3, h4, h6, h7, h8⟩

/-- C10, witness: a 5-token section behind a 7-word predecessor, overlap
injected, token_count still 5. -/
theorem C10_witness :
    ∃ c, sectionChunks countTokensModel 512 1 2
        (some ⟨"P", "w1 w2 w3 w4 w5 w6 w7", [], 0, 0, 7⟩)
        ⟨"C", "target", [], 1, 1, 5⟩ = [c] ∧
      c.token_count = 5 ∧ c.section_title = "C" ∧ c.hierarchy = [] ∧
      c.line_start = some 1 ∧ c.line_end = some 1 ∧ c.is_split = none ∧
      c.part_number = none ∧ c.total_parts = none :=
  C10_token_count_frame countTokensModel 512 1 2
    (some ⟨"P", "w1 w2 w3 w4 w5 w6 w7", [], 0, 0, 7⟩)
    ⟨"C", "target", [], 1, 1, 5⟩ (by decide)

/-- C4, counterexample: two inputs on which the claim's description fails.
First, a predecessor of token_count 1 ("hi", one token also under the real
encoder): the claim asserts has_overlap = true for every predecessor with
token_count > 0, but int(1 * 0.15) = 0 so the code leaves the chunk
verbatim with no has_overlap key.  Second, a predecessor whose stored
token_count is 100 but whose content "w1 w2 w3" measures far fewer tokens:
the claim's floor(prev.token_count * pct) = 15 would prepend all three
words, but the code computes the width from count_tokens(prev.content), not
from the stored token_count, and again adds nothing. -/
theorem C4_counterexample :
    (create_overlapping_chunks countTokensModel 512 3 20
        [⟨"P", "hi", [], 0, 0, 1⟩, ⟨"C", "target words here", [], 1, 1, 3⟩]).map
        (fun c => (c.content, c.has_overlap, c.overlap_source)) =
      [("hi", none, none), ("target words here", none, none)] ∧
    (create_overlapping_chunks countTokensModel 512 3 20
        [⟨"P", "w1 w2 w3", [], 0, 0, 100⟩, ⟨"C", "target", [], 1, 1, 5⟩]).map
        (fun c => (c.content, c.has_overlap, c.overlap_source)) =
      [("w1 w2 w3", none, none), ("target", none, none)] := by decide

/-- C4 (amended): for a section within max_tokens, writing
ov = int(count_tokens(prev.content) * overlap_pct): when a predecessor
exists with token_count > 0 AND ov > 0, the chunk's content is the last ov
words of the predecessor's content prepended (space-separated) to the
section's content, with has_overlap = true and overlap_source = the
predecessor's title; when ov = 0, when the predecessor's token_count is 0,
or when there is no predecessor, the section becomes one chunk verbatim.
The overlap width is computed from count_tokens of the predecessor's
content, not from its stored token_count field. -/
theorem C4_overlap_injection (count_tokens : String → Nat)
    (max_tokens pnum pden : Nat) (p s : Section)
    (hs : s.token_count ≤ max_tokens) :
    (0 < p.token_count →
      0 < pyIntMul (count_tokens p.content) pnum pden →
      sectionChunks count_tokens max_tokens pnum pden (some p) s =
        [{ s.toChunk with
            content := joinWords (pyLastWords
                (pyIntMul (count_tokens p.content) pnum pden)
                (pyWords p.content)) ++ " " ++ s.content,
            has_overlap := some true,
            overlap_source := some p.section_title }]) ∧
    (p.token_count = 0 ∨ pyIntMul (count_tokens p.content) pnum pden = 0 →
      sectionChunks count_tokens max_tokens pnum pden (some p) s =
        [s.toChunk]) ∧
    sectionChunks count_tokens max_tokens pnum pden none s =
      [s.toChunk] := by
  refine ⟨?_, ?_, ?_⟩
  · intro h1 h2
    unfold sectionChunks
    rw [if_pos hs]
    dsimp only
    rw [if_pos h1, if_pos h2]
  · intro hor
    unfold sectionChunks
    rw [if_pos hs]
    dsimp only
    rcases hor with h1 | h2
    · rw [if_neg (by omega)]
    · by_cases h1 : 0 < p.token_count
      · rw [if_pos h1, if_neg (by omega)]
      · rw [if_neg h1]
  · unfold sectionChunks
    rw [if_pos hs]

/-- C4, witness: with overlap percentage 1/2 and a 7-word predecessor the
chunk is prefixed by its last 3 words and flagged. -/
theorem C4_witness :
    sectionChunks countTokensModel 512 1 2
        (some ⟨"P", "w1 w2 w3 w4 w5 w6 w7", [], 0, 0, 7⟩)
        ⟨"C", "target", [], 1, 1, 5⟩ =
      [⟨"C", "w5 w6 w7 target", [], some 1, some 1, 5, some true, some "P",
        none, none, none⟩] := by
  have h := (C4_overlap_injection countTokensModel 512 1 2
    ⟨"P", "w1 w2 w3 w4 w5 w6 w7", [], 0, 0, 7⟩ ⟨"C", "target", [], 1, 1, 5⟩
    (by decide)).1 (by decide) (by decide)
  rw [h]
  decide

/-- C5, counterexample: a single section whose stored token_count (513)
exceeds max_tokens while its content is the single word "x" (one token under
the real encoder as well).  The split path re-measures each piece, so the
chunks' token_counts sum to 1, strictly below the sections' 513: overlap
does not only add tokens. -/
theorem C5_counterexample :
    ((create_overlapping_chunks countTokensModel 512 3 20
        [⟨"S", "x", [], 0, 0, 513⟩]).map (fun c => c.token_count)).sum <
      (([⟨"S", "x", [], 0, 0, 513⟩] : List Section).map
        (fun s => s.token_count)).sum := by decide

/-- Helper: on sections that all fit max_tokens the chunk token_counts sum
to exactly the section token_counts' sum, for any previous-section seed. -/
theorem chunksAux_small_sum (count_tokens : String → Nat)
    (max_tokens pnum pden : Nat) :
    ∀ (sections : List Section) (prev : Option Section),
      (∀ s ∈ sections, s.token_count ≤ max_tokens) →
      ((chunksAux count_tokens max_tokens pnum pden prev sections).map
        (fun c => c.token_count)).sum =
        ((sections.map fun s => s.token_count).sum) := by
  intro sections
  induction sections with
  | nil => intro prev _; rfl
  | cons s rest ih =>
    intro prev h
    rw [chunksAux]
    obtain ⟨c, hc, -, -, -, -, htok, -, -, -⟩ :=
      sectionChunks_small count_tokens max_tokens pnum pden prev s
        (h s (by simp))
    rw [List.map_append, List.sum_append, hc]
    simp only [List.map_cons, List.map_nil, List.sum_cons, List.sum_nil, htok]
    rw [ih (some s) fun s' h' => h s' (by simp [h'])]
    simp [List.map_cons]

/-- C5 (amended): when every section fits max_tokens (the only case in which
the stored token_counts are preserved rather than re-measured), the sum of
chunk token_counts is at least — in fact exactly — the sum of section
token_counts.  For an oversized section the chunks' token_counts are
re-measured from the piece contents and the inequality can fail whenever the
stored count exceeds the measured total. -/
theorem C5_token_sum (count_tokens : String → Nat)
    (max_tokens pnum pden : Nat) (sections : List Section)
    (h : ∀ s ∈ sections, s.token_count ≤ max_tokens) :
    ((sections.map fun s => s.token_count).sum) ≤
      ((create_overlapping_chunks count_tokens max_tokens pnum pden
        sections).map (fun c => c.token_count)).sum := by
  unfold create_overlapping_chunks
  rw [chunksAux_small_sum count_tokens max_tokens pnum pden sections none h]

/-- C5, witness: two small sections, sums agree. -/
theorem C5_witness :
    ((([⟨"A", "a b", [], 0, 0, 2⟩, ⟨"B", "c", [], 1, 1, 1⟩] : List Section).map
        fun s => s.token_count).sum) ≤
      ((create_overlapping_chunks countTokensModel 512 3 20
        [⟨"A", "a b", [], 0, 0, 2⟩, ⟨"B", "c", [], 1, 1, 1⟩]).map
        (fun c => c.token_count)).sum :=
  C5_token_sum countTokensModel 512 3 20
    [⟨"A", "a b", [], 0, 0, 2⟩, ⟨"B", "c", [], 1, 1, 1⟩] (by decide)

/-! # Word-splitting lemmas: str.split() inverts ' '.join on true words -/

theorem splitWsAux_nil (acc : List Char) :
    splitWsAux [] acc = if acc.isEmpty then [] else [acc.reverse] := rfl

theorem splitWsAux_cons (c : Char) (cs acc : List Char) :
    splitWsAux (c :: cs) acc =
      if isWS c then
        (if acc.isEmpty then splitWsAux cs [] else acc.reverse :: splitWsAux cs [])
      else splitWsAux cs (c :: acc) := rfl

theorem splitWsAux_good : ∀ (l acc : List Char),
    (∀ c ∈ acc, isWS c = false) →
    ∀ w ∈ splitWsAux l acc, w ≠ [] ∧ ∀ c ∈ w, isWS c = false := by
  intro l
  induction l with
  | nil =>
    intro acc hacc w hw
    rw [splitWsAux_nil] at hw
    by_cases h : acc.isEmpty
    · rw [if_pos h] at hw; simp at hw
    · rw [if_neg h] at hw
      simp only [List.mem_singleton] at hw
      subst hw
      refine ⟨?_, fun c hc => hacc c (List.mem_reverse.mp hc)⟩
      intro hcon
      rw [List.reverse_eq_nil_iff] at hcon
      rw [hcon] at h
      simp at h
  | cons c cs ih =>
    intro acc hacc w hw
    rw [splitWsAux_cons] at hw
    by_cases hc : isWS c
    · rw [if_pos hc] at hw
      by_cases ha : acc.isEmpty
      · rw [if_pos ha] at hw
        exact ih [] (by simp) w hw
      · rw [if_neg ha] at hw
        rcases List.mem_cons.mp hw with rfl | hw'
        · refine ⟨?_, fun x hx => hacc x (List.mem_reverse.mp hx)⟩
          intro hcon
          rw [List.reverse_eq_nil_iff] at hcon
          rw [hcon] at ha
          simp at ha
        · exact ih [] (by simp) w hw'
    · rw [if_neg hc] at hw
      refine ih (c :: acc) ?_ w hw
      intro x hx
      rcases List.mem_cons.mp hx with rfl | hx'
      · exact Bool.not_eq_true _ ▸ (by simpa using hc)
      · exact hacc x hx'

theorem splitWsAux_word : ∀ (w l acc : List Char),
    (∀ c ∈ w, isWS c = false) →
    splitWsAux (w ++ l) acc = splitWsAux l (w.reverse ++ acc) := by
  intro w
  induction w with
  | nil => intro l acc _; simp
  | cons c cs ih =>
    intro l acc hw
    have hc : isWS c = false := hw c (by simp)
    simp only [List.cons_append]
    rw [splitWsAux_cons, if_neg (by simp [hc])]
    rw [ih l (c :: acc) fun x hx => hw x (by simp [hx])]
    simp

theorem splitWsAux_space_acc (l acc : List Char) (ha : acc ≠ []) :
    splitWsAux (' ' :: l) acc = acc.reverse :: splitWsAux l [] := by
  rw [splitWsAux_cons, if_pos (by decide), if_neg (by simpa using ha)]

theorem splitWsAux_nil_acc (acc : List Char) (ha : acc ≠ []) :
    splitWsAux [] acc = [acc.reverse] := by
  rw [splitWsAux_nil, if_neg (by simpa using ha)]

theorem splitWs_join : ∀ ws : List (List Char),
    (∀ w ∈ ws, w ≠ [] ∧ ∀ c ∈ w, isWS c = false) →
    splitWsAux (joinWordsChars ws) [] = ws := by
  intro ws
  induction ws with
  | nil => intro _; rfl
  | cons w rest ih =>
    intro h
    obtain ⟨hne, hgood⟩ := h w (by simp)
    cases rest with
    | nil =>
      show splitWsAux (joinWordsChars [w]) [] = [w]
      have : joinWordsChars [w] = w := rfl
      rw [this, ← List.append_nil w, splitWsAux_word w [] [] hgood]
      rw [List.append_nil]
      rw [splitWsAux_nil_acc _ (by simpa using hne)]
      simp
    | cons w2 rest2 =>
      have hj : joinWordsChars (w :: w2 :: rest2) =
          w ++ ' ' :: joinWordsChars (w2 :: rest2) := rfl
      rw [hj, splitWsAux_word w _ [] hgood, List.append_nil]
      rw [splitWsAux_space_acc _ _ (by simpa using hne)]
      rw [List.reverse_reverse]
      rw [ih fun x hx => h x (by simp [hx])]

theorem splitWs_join_two (l₂ : List (List Char))
    (h₂ : ∀ w ∈ l₂, w ≠ [] ∧ ∀ c ∈ w, isWS c = false) :
    ∀ l₁, (∀ w ∈ l₁, w ≠ [] ∧ ∀ c ∈ w, isWS c = false) →
      splitWsAux (joinWordsChars l₁ ++ ' ' :: joinWordsChars l₂) [] = l₁ ++ l₂ := by
  intro l₁
  induction l₁ with
  | nil =>
    intro _
    show splitWsAux (' ' :: joinWordsChars l₂) [] = l₂
    have h : splitWsAux (' ' :: joinWordsChars l₂) [] =
        splitWsAux (joinWordsChars l₂) [] := by
      rw [splitWsAux_cons, if_pos (by decide), if_pos (by decide)]
    rw [h, splitWs_join l₂ h₂]
  | cons w rest ih =>
    intro h₁
    obtain ⟨hne1, hgood1⟩ := h₁ w (by simp)
    cases rest with
    | nil =>
      show splitWsAux (w ++ ' ' :: joinWordsChars l₂) [] = w :: l₂
      rw [splitWsAux_word w _ [] hgood1, List.append_nil]
      rw [splitWsAux_space_acc _ _ (by simpa using hne1)]
      rw [List.reverse_reverse, splitWs_join l₂ h₂]
    | cons w2 rest2 =>
      have hstep : joinWordsChars (w :: w2 :: rest2) ++ ' ' :: joinWordsChars l₂ =
          w ++ (' ' :: (joinWordsChars (w2 :: rest2) ++ ' ' :: joinWordsChars l₂)) := by
        show (w ++ ' ' :: joinWordsChars (w2 :: rest2)) ++ ' ' :: joinWordsChars l₂ = _
        simp [List.append_assoc]
      rw [hstep, splitWsAux_word w _ [] hgood1, List.append_nil]
      rw [splitWsAux_space_acc _ _ (by simpa using hne1), List.reverse_reverse]
      rw [ih fun x hx => h₁ x (by simp [hx])]
      rfl

theorem string_data_append (a b : String) : (a ++ b).data = a.data ++ b.data := rfl

theorem pyWords_map_data (s : String) :
    (pyWords s).map String.data = splitWsAux s.data [] := by
  unfold pyWords
  rw [List.map_map]
  rw [show (String.data ∘ fun w : List Char => (⟨w⟩ : String)) = id from rfl,
    List.map_id]

theorem pyWords_good (s : String) :
    ∀ wc ∈ (pyWords s).map String.data, wc ≠ [] ∧ ∀ c ∈ wc, isWS c = false := by
  rw [pyWords_map_data]
  exact splitWsAux_good s.data [] (by simp)

theorem good_of_sub (ws' ws : List String) (hsub : ∀ w ∈ ws', w ∈ ws)
    (hg : ∀ wc ∈ ws.map String.data, wc ≠ [] ∧ ∀ c ∈ wc, isWS c = false) :
    ∀ wc ∈ ws'.map String.data, wc ≠ [] ∧ ∀ c ∈ wc, isWS c = false := by
  intro wc hwc
  obtain ⟨w, hw, rfl⟩ := List.mem_map.mp hwc
  exact hg w.data (List.mem_map_of_mem _ (hsub w hw))

theorem pyWords_joinWords (ws : List String)
    (h : ∀ wc ∈ ws.map String.data, wc ≠ [] ∧ ∀ c ∈ wc, isWS c = false) :
    pyWords (joinWords ws) = ws := by
  show (splitWsAux (joinWordsChars (ws.map String.data)) []).map
      (fun w => (⟨w⟩ : String)) = ws
  rw [splitWs_join _ h, List.map_map]
  rw [show ((fun w : List Char => (⟨w⟩ : String)) ∘ String.data) = id from rfl,
    List.map_id]

theorem pyWords_join_two (ws₁ ws₂ : List String)
    (h₁ : ∀ wc ∈ ws₁.map String.data, wc ≠ [] ∧ ∀ c ∈ wc, isWS c = false)
    (h₂ : ∀ wc ∈ ws₂.map String.data, wc ≠ [] ∧ ∀ c ∈ wc, isWS c = false) :
    pyWords (joinWords ws₁ ++ " " ++ joinWords ws₂) = ws₁ ++ ws₂ := by
  have hd : (joinWords ws₁ ++ " " ++ joinWords ws₂).data =
      joinWordsChars (ws₁.map String.data) ++
        ' ' :: joinWordsChars (ws₂.map String.data) := by
    rw [string_data_append, string_data_append]
    simp [joinWords, List.append_assoc]
  unfold pyWords
  rw [hd, splitWs_join_two (ws₂.map String.data) h₂ (ws₁.map String.data) h₁]
  rw [List.map_append, List.map_map, List.map_map]
  rw [show ((fun w : List Char => (⟨w⟩ : String)) ∘ String.data) = id from rfl,
    List.map_id, List.map_id]

/-! # pyRange lemmas -/

theorem pyRangeFuel_mem (step : Nat) : ∀ (fuel start stop j : Nat),
    j ∈ pyRangeFuel step fuel start stop → start ≤ j ∧ j < stop := by
  intro fuel
  induction fuel with
  | zero => intro start stop j h; simp [pyRangeFuel] at h
  | succ fuel ih =>
    intro start stop j h
    rw [pyRangeFuel] at h
    by_cases hlt : start < stop
    · rw [if_pos hlt] at h
      rcases List.mem_cons.mp h with rfl | h'
      · exact ⟨le_rfl, hlt⟩
      · have := ih (start + step) stop j h'
        omega
    · rw [if_neg hlt] at h
      simp at h

theorem pyRangeFuel_eq_map (step : Nat) (hstep : 0 < step) :
    ∀ (fuel start stop : Nat), stop - start ≤ fuel →
      pyRangeFuel step fuel start stop =
        (List.range ((stop - start + step - 1) / step)).map
          (fun t => start + t * step) := by
  intro fuel
  induction fuel with
  | zero =>
    intro start stop h
    have h0 : stop - start = 0 := by omega
    rw [pyRangeFuel, h0]
    rw [Nat.div_eq_of_lt (by omega : 0 + step - 1 < step)]
    simp
  | succ fuel ih =>
    intro start stop h
    rw [pyRangeFuel]
    by_cases hlt : start < stop
    · rw [if_pos hlt, ih (start + step) stop (by omega)]
      have hc : (stop - start + step - 1) / step =
          (stop - (start + step) + step - 1) / step + 1 := by
        have h1 : stop - start + step - 1 = (stop - start - 1) + step := by omega
        rcases le_or_lt step (stop - start) with hca | hca
        · have h2 : stop - (start + step) + step - 1 = stop - start - 1 := by omega
          rw [h1, h2, Nat.add_div_right _ hstep]
        · have h3 : stop - (start + step) = 0 := by omega
          rw [h1, h3, Nat.add_div_right _ hstep]
          have h4 : (stop - start - 1) / step = 0 := Nat.div_eq_of_lt (by omega)
          have h5 : (0 + step - 1) / step = 0 := Nat.div_eq_of_lt (by omega)
          omega
      rw [hc, List.range_succ_eq_map]
      simp only [List.map_cons, List.map_map, Nat.zero_mul, Nat.add_zero]
      refine congrArg (_ :: ·) (List.map_congr_left fun t _ => ?_)
      simp [Function.comp, Nat.succ_mul]
      ring
    · rw [if_neg hlt]
      have h0 : stop - start = 0 := by omega
      rw [h0, Nat.div_eq_of_lt (by omega : 0 + step - 1 < step)]
      simp

theorem pyRange_eq_map (start stop step : Nat) (hstep : 0 < step) :
    pyRange start stop step =
      (List.range ((stop - start + step - 1) / step)).map
        (fun t => start + t * step) := by
  unfold pyRange
  rw [if_neg (by omega)]
  exact pyRangeFuel_eq_map step hstep _ start stop le_rfl

theorem pyRange_mem (start stop step j : Nat) (h : j ∈ pyRange start stop step) :
    start ≤ j ∧ j < stop := by
  unfold pyRange at h
  by_cases hs : step = 0
  · rw [if_pos hs] at h; simp at h
  · rw [if_neg hs] at h
    exact pyRangeFuel_mem step _ start stop j h

/-! # Claim C3 -/

theorem splitChunkAt_content (count_tokens : String → Nat) (s : Section)
    (words : List String) (chunk_size overlap_size j : Nat) :
    (splitChunkAt count_tokens s words chunk_size overlap_size j).content =
      if 0 < j then
        joinWords ((words.take j).drop (j - overlap_size)) ++ " " ++
          joinWords ((words.drop j).take chunk_size)
      else joinWords ((words.drop j).take chunk_size) := rfl

/-- C3: an oversized section (token_count > max_tokens, with the sensible
configuration 50 < max_tokens) is split into ceil(word_count / chunk_size)
pieces for chunk_size = max_tokens - 50: the k-th chunk starts at word
offset j = k * chunk_size, carries is_split = true,
part_number = j / chunk_size + 1 and total_parts = ceil(word_count /
chunk_size); its words are exactly the overlap slice
words[max(0, j - ov):j] (empty for the first piece) for
ov = int(chunk_size * overlap_pct) followed by the piece words
words[j:j + chunk_size]; hence its word count is at most chunk_size + ov. -/
theorem C3_oversized_split (count_tokens : String → Nat)
    (max_tokens pnum pden : Nat) (prev : Option Section) (s : Section)
    (hmt : 50 < max_tokens) (hs : max_tokens < s.token_count) :
    (sectionChunks count_tokens max_tokens pnum pden prev s).length =
      ((pyWords s.content).length + (max_tokens - 50) - 1) / (max_tokens - 50) ∧
    ∀ k (hk : k < (sectionChunks count_tokens max_tokens pnum pden prev s).length),
      ((sectionChunks count_tokens max_tokens pnum pden prev s).get ⟨k, hk⟩).is_split =
          some true ∧
      ((sectionChunks count_tokens max_tokens pnum pden prev s).get ⟨k, hk⟩).part_number =
          some (k * (max_tokens - 50) / (max_tokens - 50) + 1) ∧
      ((sectionChunks count_tokens max_tokens pnum pden prev s).get ⟨k, hk⟩).total_parts =
          some (((pyWords s.content).length + (max_tokens - 50) - 1) /
            (max_tokens - 50)) ∧
      pyWords ((sectionChunks count_tokens max_tokens pnum pden prev s).get
          ⟨k, hk⟩).content =
        ((pyWords s.content).take (k * (max_tokens - 50))).drop
            (k * (max_tokens - 50) - pyIntMul (max_tokens - 50) pnum pden) ++
          ((pyWords s.content).drop (k * (max_tokens - 50))).take
            (max_tokens - 50) ∧
      (pyWords ((sectionChunks count_tokens max_tokens pnum pden prev s).get
          ⟨k, hk⟩).content).length ≤
        (max_tokens - 50) + pyIntMul (max_tokens - 50) pnum pden := by
  have hcs : 0 < max_tokens - 50 := by omega
  have hcks : sectionChunks count_tokens max_tokens pnum pden prev s =
      (List.range (((pyWords s.content).length + (max_tokens - 50) - 1) /
          (max_tokens - 50))).map
        (fun k => splitChunkAt count_tokens s (pyWords s.content)
          (max_tokens - 50) (pyIntMul (max_tokens - 50) pnum pden)
          (0 + k * (max_tokens - 50))) := by
    unfold sectionChunks
    rw [if_neg (by omega)]
    show (pyRange 0 (pyWords s.content).length (max_tokens - 50)).map
        (splitChunkAt count_tokens s (pyWords s.content) (max_tokens - 50)
          (pyIntMul (max_tokens - 50) pnum pden)) = _
    rw [pyRange_eq_map 0 _ _ hcs, List.map_map]
    rfl
  constructor
  · rw [hcks, List.length_map, List.length_range]
  · intro k hk
    have hk' : k < ((pyWords s.content).length + (max_tokens - 50) - 1) /
        (max_tokens - 50) := by
      rw [hcks, List.length_map, List.length_range] at hk
      exact hk
    have hget : (sectionChunks count_tokens max_tokens pnum pden prev s).get
        ⟨k, hk⟩ = splitChunkAt count_tokens s (pyWords s.content)
          (max_tokens - 50) (pyIntMul (max_tokens - 50) pnum pden)
          (k * (max_tokens - 50)) := by
      have h := List.get_of_eq hcks ⟨k, hk⟩
      rw [h]
      simp [List.get_eq_getElem, List.getElem_map]
    rw [hget]
    have hgood := pyWords_good s.content
    have hgood1 : ∀ wc ∈ (((pyWords s.content).take (k * (max_tokens - 50))).drop
        (k * (max_tokens - 50) - pyIntMul (max_tokens - 50) pnum pden)).map
          String.data, wc ≠ [] ∧ ∀ c ∈ wc, isWS c = false :=
      good_of_sub _ _ (fun w hw =>
        List.mem_of_mem_take (List.mem_of_mem_drop hw)) hgood
    have hgood2 : ∀ wc ∈ (((pyWords s.content).drop (k * (max_tokens - 50))).take
        (max_tokens - 50)).map String.data, wc ≠ [] ∧ ∀ c ∈ wc, isWS c = false :=
      good_of_sub _ _ (fun w hw =>
        List.mem_of_mem_drop (List.mem_of_mem_take hw)) hgood
    have hwords : pyWords (splitChunkAt count_tokens s (pyWords s.content)
        (max_tokens - 50) (pyIntMul (max_tokens - 50) pnum pden)
        (k * (max_tokens - 50))).content =
        ((pyWords s.content).take (k * (max_tokens - 50))).drop
            (k * (max_tokens - 50) - pyIntMul (max_tokens - 50) pnum pden) ++
          ((pyWords s.content).drop (k * (max_tokens - 50))).take
            (max_tokens - 50) := by
      rw [splitChunkAt_content]
      by_cases hj : 0 < k * (max_tokens - 50)
      · rw [if_pos hj]
        exact pyWords_join_two _ _ hgood1 hgood2
      · rw [if_neg hj]
        have hk0 : k * (max_tokens - 50) = 0 := by omega
        rw [pyWords_joinWords _ hgood2, hk0]
        simp
    refine ⟨rfl, rfl, rfl, hwords, ?_⟩
    rw [hwords, List.length_append]
    have h1 : (((pyWords s.content).take (k * (max_tokens - 50))).drop
        (k * (max_tokens - 50) - pyIntMul (max_tokens - 50) pnum pden)).length ≤
        pyIntMul (max_tokens - 50) pnum pden := by
      rw [List.length_drop, List.length_take]
      omega
    have h2 : (((pyWords s.content).drop (k * (max_tokens - 50))).take
        (max_tokens - 50)).length ≤ max_tokens - 50 := by
      rw [List.length_take]
      omega
    omega

/-- C3, witness: max_tokens = 52 (chunk_size 2), overlap 1/2 (1 word), a
5-word section of stored token_count 53 gives three pieces "a b", "b c d",
"d e". -/
theorem C3_witness :
    (sectionChunks countTokensModel 52 1 2 none ⟨"S", "a b c d e", [], 0, 0, 53⟩).length = 3 ∧
    (sectionChunks countTokensModel 52 1 2 none
        ⟨"S", "a b c d e", [], 0, 0, 53⟩).map
      (fun c => (c.content, c.is_split, c.part_number, c.total_parts)) =
      [("a b", some true, some 1, some 3), ("b c d", some true, some 2, some 3),
        ("d e", some true, some 3, some 3)] ∧
    pyWords "b c d" =
      ((pyWords "a b c d e").take 2).drop (2 - pyIntMul 2 1 2) ++
        ((pyWords "a b c d e").drop 2).take 2 := by
  refine ⟨?_, by decide, ?_⟩
  · have h := (C3_oversized_split countTokensModel 52 1 2 none
      ⟨"S", "a b c d e", [], 0, 0, 53⟩ (by decide) (by decide)).1
    rw [h]
    decide
  · have h := (C3_oversized_split countTokensModel 52 1 2 none
      ⟨"S", "a b c d e", [], 0, 0, 53⟩ (by decide) (by decide)).2 1 (by decide)
    have hc : ((sectionChunks countTokensModel 52 1 2 none
        ⟨"S", "a b c d e", [], 0, 0, 53⟩).get ⟨1, by decide⟩).content = "b c d" := by
      decide
    rw [← hc]
    exact h.2.2.2.1

/-! # Claim C6 -/

theorem filter_flatten' {α : Type} (p : α → Bool) :
    ∀ L : List (List α), L.flatten.filter p = (L.map (List.filter p)).flatten := by
  intro L
  induction L with
  | nil => rfl
  | cons x rest ih => simp [List.filter_append, ih]

theorem pyRangeFuel_slice_flatten {α : Type} (step : Nat) (hstep : 0 < step)
    (l : List α) : ∀ (fuel start : Nat), l.length - start ≤ fuel →
    ((pyRangeFuel step fuel start l.length).map
      (fun i => (l.drop i).take step)).flatten = l.drop start := by
  intro fuel
  induction fuel with
  | zero =>
    intro start h
    have hle : l.length ≤ start := by omega
    rw [pyRangeFuel]
    simp [List.drop_eq_nil_of_le hle]
  | succ fuel ih =>
    intro start h
    rw [pyRangeFuel]
    by_cases hlt : start < l.length
    · rw [if_pos hlt]
      simp only [List.map_cons, List.flatten_cons]
      rw [ih (start + step) (by omega)]
      have hdd : l.drop (start + step) = (l.drop start).drop step := by
        rw [List.drop_drop]
      rw [hdd, List.take_append_drop]
    · rw [if_neg hlt]
      simp [List.drop_eq_nil_of_le (by omega : l.length ≤ start)]

theorem pyRange_slice_flatten {α : Type} (step : Nat) (hstep : 0 < step)
    (l : List α) :
    ((pyRange 0 l.length step).map (fun i => (l.drop i).take step)).flatten = l := by
  unfold pyRange
  rw [if_neg (by omega)]
  have h := pyRangeFuel_slice_flatten step hstep l (l.length - 0) 0 le_rfl
  simpa using h

theorem create_embedding_batch_length (embed : String → Option (List ℤ)) :
    ∀ (b : List FSection) (i : Nat),
      (create_embedding_batch embed b i).length =
        (b.filter fun sec => (embed sec.content).isSome).length := by
  intro b
  induction b with
  | nil => intro i; rfl
  | cons sec rest ih =>
    intro i
    rw [create_embedding_batch]
    cases hembed : embed sec.content with
    | some e => simp [List.filter_cons, hembed, ih]
    | none => simp [List.filter_cons, hembed, ih]

/-- C6: after create_faiss_embeddings, the persisted vector array and
metadata array have the same length, equal to the number of sections whose
embedding call succeeded — a raising embedding call is skipped and aborts
neither its batch nor the build; when no call succeeds nothing is persisted
and indeed no section embedded successfully. -/
theorem C6_index_parallel_arrays (embed : String → Option (List ℤ))
    (normalize : List ℤ → List ℤ) (sections : List FSection)
    (file_id filename : String) :
    (∀ vecs metadata,
      (create_faiss_embeddings embed normalize sections file_id filename).1 =
        some (vecs, metadata) →
      vecs.length = metadata.length ∧
      metadata.length =
        (sections.filter fun sec => (embed sec.content).isSome).length) ∧
    ((create_faiss_embeddings embed normalize sections file_id filename).1 =
        none →
      (sections.filter fun sec => (embed sec.content).isSome).length = 0) := by
  have hitems : ((((pyRange 0 sections.length 10).map
      (fun i => ((sections.drop i).take 10, i))).map
        (fun b => create_embedding_batch embed b.1 b.2)).flatten).length =
      (sections.filter fun sec => (embed sec.content).isSome).length := by
    rw [List.map_map]
    have hlen : ∀ L : List (List (List ℤ × Nat)),
        L.flatten.length = (L.map List.length).sum := by
      intro L
      induction L with
      | nil => rfl
      | cons x rest ih => simp [ih]
    rw [hlen, List.map_map]
    have hright : (sections.filter fun sec => (embed sec.content).isSome) =
        (((pyRange 0 sections.length 10).map
          (fun i => (sections.drop i).take 10)).map
            (List.filter fun sec => (embed sec.content).isSome)).flatten := by
      conv_lhs => rw [← pyRange_slice_flatten 10 (by omega) sections]
      rw [← filter_flatten']
    rw [hright]
    have hlen2 : ∀ L : List (List FSection),
        L.flatten.length = (L.map List.length).sum := by
      intro L
      induction L with
      | nil => rfl
      | cons x rest ih => simp [ih]
    rw [hlen2, List.map_map, List.map_map]
    congr 1
    refine List.map_congr_left fun i _ => ?_
    exact create_embedding_batch_length embed _ i
  have hbody : create_faiss_embeddings embed normalize sections file_id filename =
      (if ((((pyRange 0 sections.length 10).map
          (fun i => ((sections.drop i).take 10, i))).map
            (fun b => create_embedding_batch embed b.1 b.2)).flatten.map
              (fun it => it.1)).isEmpty
       then (none, 0)
       else (some (((((pyRange 0 sections.length 10).map
          (fun i => ((sections.drop i).take 10, i))).map
            (fun b => create_embedding_batch embed b.1 b.2)).flatten.map
              (fun it => it.1)).map normalize,
          (((pyRange 0 sections.length 10).map
          (fun i => ((sections.drop i).take 10, i))).map
            (fun b => create_embedding_batch embed b.1 b.2)).flatten.map
              (fun it => mkMeta sections file_id filename it.2)),
         ((((((pyRange 0 sections.length 10).map
          (fun i => ((sections.drop i).take 10, i))).map
            (fun b => create_embedding_batch embed b.1 b.2)).flatten.map
              (fun it => mkMeta sections file_id filename it.2)).map
                (fun m => m.token_count)).sum))) := rfl
  by_cases hemp : ((((pyRange 0 sections.length 10).map
      (fun i => ((sections.drop i).take 10, i))).map
        (fun b => create_embedding_batch embed b.1 b.2)).flatten.map
          (fun it => it.1)).isEmpty
  · constructor
    · intro vecs metadata heq
      rw [hbody, if_pos hemp] at heq
      simp at heq
    · intro _
      rw [← hitems]
      have h0 : ((((pyRange 0 sections.length 10).map
          (fun i => ((sections.drop i).take 10, i))).map
            (fun b => create_embedding_batch embed b.1 b.2)).flatten.map
              (fun it => it.1)).length = 0 := by
        rw [List.isEmpty_iff] at hemp
        rw [hemp]
        rfl
      rw [List.length_map] at h0
      omega
  · constructor
    · intro vecs metadata heq
      rw [hbody, if_neg hemp] at heq
      simp only [Option.some.injEq, Prod.mk.injEq] at heq
      obtain ⟨hv, hm⟩ := heq
      rw [← hv, ← hm]
      simp only [List.length_map]
      exact ⟨trivial, hitems⟩
    · intro heq
      rw [hbody, if_neg hemp] at heq
      simp at heq

/-! # Claim C7 -/

theorem mem_insertBy {α : Type} (le : α → α → Bool) (a x : α) :
    ∀ l : List α, x ∈ insertBy le a l → x = a ∨ x ∈ l := by
  intro l
  induction l with
  | nil =>
    intro h
    simp [insertBy] at h
    exact Or.inl h
  | cons b rest ih =>
    intro h
    rw [insertBy] at h
    by_cases hle : le a b
    · rw [if_pos hle] at h
      rcases List.mem_cons.mp h with rfl | h'
      · exact Or.inl rfl
      · exact Or.inr h'
    · rw [if_neg hle] at h
      rcases List.mem_cons.mp h with rfl | h'
      · exact Or.inr (by simp)
      · rcases ih h' with rfl | h''
        · exact Or.inl rfl
        · exact Or.inr (by simp [h''])

theorem mem_sortBy {α : Type} (le : α → α → Bool) (x : α) :
    ∀ l : List α, x ∈ sortBy le l → x ∈ l := by
  intro l
  induction l with
  | nil => intro h; simp [sortBy] at h
  | cons b rest ih =>
    intro h
    rw [sortBy] at h
    rcases mem_insertBy le b x _ h with rfl | h'
    · simp
    · exact List.mem_cons_of_mem _ (ih h')

theorem length_insertBy {α : Type} (le : α → α → Bool) (a : α) :
    ∀ l : List α, (insertBy le a l).length = l.length + 1 := by
  intro l
  induction l with
  | nil => rfl
  | cons b rest ih =>
    rw [insertBy]
    by_cases hle : le a b
    · rw [if_pos hle]; rfl
    · rw [if_neg hle]; simp [ih]

theorem length_sortBy {α : Type} (le : α → α → Bool) :
    ∀ l : List α, (sortBy le l).length = l.length := by
  intro l
  induction l with
  | nil => rfl
  | cons b rest ih => rw [sortBy, length_insertBy, ih]; rfl

theorem faissSearch_length (vecs : List (List ℤ)) (qv : List ℤ) (k : Nat) :
    (faissSearch vecs qv k).length = min k vecs.length + (k - vecs.length) := by
  unfold faissSearch
  rw [List.length_append, List.length_take, length_sortBy, List.length_replicate]
  simp [List.length_map]

theorem faissSearch_idx (vecs : List (List ℤ)) (qv : List ℤ) (k : Nat)
    (p : ℤ × ℤ) (hp : p ∈ faissSearch vecs qv k) :
    (0 ≤ p.2 ∧ p.2 < (vecs.length : ℤ)) ∨ p.2 = -1 := by
  unfold faissSearch at hp
  rcases List.mem_append.mp hp with h | h
  · left
    have hmem := mem_sortBy _ _ _ (List.mem_of_mem_take h)
    obtain ⟨q, hq, rfl⟩ := List.mem_map.mp hmem
    obtain ⟨h1, -⟩ := List.of_mem_zip (by simpa [List.enum_eq_zip_range] using hq)
    have h2 := List.mem_range.mp h1
    refine ⟨Int.ofNat_nonneg _, ?_⟩
    show (q.1 : ℤ) < (vecs.length : ℤ)
    exact_mod_cast h2
  · right
    have := List.eq_of_mem_replicate h
    rw [this]

theorem pyGetIdx_isSome_of_lt {α : Type} (l : List α) (i : ℤ)
    (h0 : 0 ≤ i) (hlt : i < (l.length : ℤ)) : (pyGetIdx l i).isSome := by
  unfold pyGetIdx
  rw [if_pos h0]
  rw [List.get?_eq_getElem?, List.getElem?_eq_getElem (by omega : i.toNat < l.length)]
  rfl

theorem pyGetIdx_isSome_neg_one {α : Type} (l : List α) (hne : l ≠ []) :
    (pyGetIdx l (-1)).isSome := by
  unfold pyGetIdx
  rw [if_neg (by decide)]
  have hlen : 0 < l.length := List.length_pos.mpr hne
  rw [if_pos (by simpa using hlen)]
  rw [show ((-(-1 : ℤ)).toNat) = 1 from rfl]
  rw [List.get?_eq_getElem?, List.getElem?_eq_getElem (by omega : l.length - 1 < l.length)]
  rfl

theorem collectResults_all (metadata : List MetaRecord) :
    ∀ hits : List (ℤ × ℤ),
      (∀ p ∈ hits, p.2 < (metadata.length : ℤ) ∧ (pyGetIdx metadata p.2).isSome) →
      ∃ rs, collectResults metadata hits = some rs ∧ rs.length = hits.length := by
  intro hits
  induction hits with
  | nil => intro _; exact ⟨[], rfl, rfl⟩
  | cons p rest ih =>
    intro h
    obtain ⟨hlt, hsome⟩ := h p (by simp)
    obtain ⟨rs, hrs, hlenrs⟩ := ih fun q hq => h q (by simp [hq])
    obtain ⟨m, hm⟩ := Option.isSome_iff_exists.mp hsome
    refine ⟨(m, p.1) :: rs, ?_, by simp [hlenrs]⟩
    show collectResults metadata ((p.1, p.2) :: rest) = some ((m, p.1) :: rs)
    rw [collectResults, if_pos hlt, hm, hrs]
    rfl

/-- C7: when no stored metadata record satisfies the supplied filters (the
predicates apply_filters implements: page_range and section_index),
filtered_vector_search returns exactly the unfiltered
search_similar_sections result capped at limit 3, and — provided the
document has at least one indexed chunk and the query embeds — that
fallback result is not empty. -/
theorem C7_filtered_search_fallback (embed : String → Option (List ℤ))
    (normalize : List ℤ → List ℤ) (vecs : List (List ℤ))
    (metadata : List MetaRecord) (query : String) (filters : Filters)
    (hlen : vecs.length = metadata.length) (hne : metadata ≠ [])
    (hfil : ∀ m ∈ metadata, apply_filters m filters = false)
    (hq : (embed query).isSome) :
    filtered_vector_search embed normalize (some (vecs, metadata)) query filters =
      search_similar_sections embed normalize (some (vecs, metadata)) query 3 ∧
    search_similar_sections embed normalize (some (vecs, metadata)) query 3 ≠ [] := by
  constructor
  · unfold filtered_vector_search
    have hempty : (metadata.enum.filter fun p => apply_filters p.2 filters) = [] := by
      rw [List.filter_eq_nil_iff]
      intro p hp
      have hmem : p.2 ∈ metadata := by
        rw [List.enum_eq_zip_range] at hp
        exact (List.of_mem_zip hp).2
      simp [hfil p.2 hmem]
    dsimp only
    rw [hempty]
    rfl
  · obtain ⟨qe, hqe⟩ := Option.isSome_iff_exists.mp hq
    unfold search_similar_sections
    rw [hqe]
    have hall : ∀ p ∈ faissSearch vecs (normalize qe) 3,
        p.2 < (metadata.length : ℤ) ∧ (pyGetIdx metadata p.2).isSome := by
      intro p hp
      have hpos : 0 < metadata.length := List.length_pos.mpr hne
      rcases faissSearch_idx vecs (normalize qe) 3 p hp with ⟨h0, hlt⟩ | hm1
      · rw [hlen] at hlt
        exact ⟨hlt, pyGetIdx_isSome_of_lt metadata p.2 h0 hlt⟩
      · rw [hm1]
        refine ⟨by omega, pyGetIdx_isSome_neg_one metadata hne⟩
    obtain ⟨rs, hrs, hlenrs⟩ := collectResults_all metadata _ hall
    dsimp only
    rw [hrs]
    dsimp only
    intro hcon
    rw [hcon] at hlenrs
    rw [faissSearch_length] at hlenrs
    simp at hlenrs
    omega

/-- C7, witness: two indexed chunks, a section_index filter no record
matches; the fallback equals the unfiltered limit-3 search and is
non-empty. -/
theorem C7_witness :
    filtered_vector_search
        (fun s => if s = "q" then some [1] else none) id
        (some ([[1], [2]],
          [⟨0, "t0", "c0", 0, 0, 5, 0, none, none, none, "f", "fn"⟩,
            ⟨1, "t1", "c1", 1, 1, 6, 0, none, none, none, "f", "fn"⟩]))
        "q" ⟨none, some 99⟩ =
      search_similar_sections
        (fun s => if s = "q" then some [1] else none) id
        (some ([[1], [2]],
          [⟨0, "t0", "c0", 0, 0, 5, 0, none, none, none, "f", "fn"⟩,
            ⟨1, "t1", "c1", 1, 1, 6, 0, none, none, none, "f", "fn"⟩]))
        "q" 3 ∧
    search_similar_sections
        (fun s => if s = "q" then some [1] else none) id
        (some ([[1], [2]],
          [⟨0, "t0", "c0", 0, 0, 5, 0, none, none, none, "f", "fn"⟩,
            ⟨1, "t1", "c1", 1, 1, 6, 0, none, none, none, "f", "fn"⟩]))
        "q" 3 ≠ [] :=
  C7_filtered_search_fallback
    (fun s => if s = "q" then some [1] else none) id [[1], [2]]
    [⟨0, "t0", "c0", 0, 0, 5, 0, none, none, none, "f", "fn"⟩,
      ⟨1, "t1", "c1", 1, 1, 6, 0, none, none, none, "f", "fn"⟩]
    "q" ⟨none, some 99⟩ (by decide) (by decide) (by decide) (by decide)

end LegalChatBot
